import Mathlib

/-!
Verification development for the KungFu repository
(`srcs/go/cmd/run-experiments/run-experiments.go` and
`srcs/go/cmd/kungfu-run/kungfu-run.go`).

The Go code is shallowly embedded: pure helper functions become Lean
functions, and the concurrent host pool of `runAllExperiments` becomes an
explicit small-step transition system over a scheduler state.  Go `int`
values are modelled as `Int`; the `float32` fields of `Result` are modelled
as `ℚ` (the decimal value scanned by `fmt.Sscanf`, below the float-rounding
abstraction level).
-/

namespace KungFu

/-- Embedding of `rch.HostSpec` as used by `run-experiments.go`
(fields `Hostname`, `Slots`, `PublicAddr`). -/
structure HostSpec where
  Hostname : String
  Slots : Int
  PublicAddr : String
deriving DecidableEq

/-- The zero value of `HostSpec` (Go default for out-of-range modelling). -/
def dH : HostSpec := ⟨"", 0, ""⟩

/-- Embedding of `wire.KungFu_AllReduceAlgo` restricted to the four
constructors used in `runAllExperiments` (lines 134-139). -/
inductive KungFu_AllReduceAlgo where
  | KungFu_Simple
  | KungFu_Ring
  | KungFu_Clique
  | KungFu_Tree
deriving DecidableEq

/-- Embedding of the `Result` struct (line 60): `Mean`, `Conf` are Go
`float32`; modelled as `ℚ` at the decimal level. -/
structure Result where
  Mean : ℚ
  Conf : ℚ
deriving DecidableEq

/-- Embedding of the `Record` struct (line 50). -/
structure Record where
  partition : List Int
  algo : KungFu_AllReduceAlgo
  result : Result
deriving DecidableEq

/-! ## The host pool of `runAllExperiments` (lines 69-131)

`pool` is a buffered Go channel of capacity `len(hosts)`: a FIFO queue;
a receive (`<-pool`) atomically pops the front and blocks on an empty
queue, a send (`pool <- h`) atomically appends and blocks on a full
queue.  `banker` is a `sync.Mutex`.  Each goroutine running the closure
of `run` is an agent; the program counter values below follow the
statements of `requireN` (lines 75-96), `returnAll` (lines 97-101) and
the goroutine body (lines 111-131). -/

/-- Program counter of one experiment goroutine inside
`requireN`/`returnAll`.  `start`: about to execute `banker.Lock()`;
`locked`: about to execute `banker.Unlock()`; `check`: about to evaluate
`len(pool) >= n`; `taking k`: has received `k` of `n` hosts and is about
to execute the next `<-pool`; `waiting`: blocked on the retry ticker
(`<-tk.C`); `borrowed`: `requireN` returned, experiment underway, the
deferred `returnAll` still pending; `finished`: `returnAll` completed. -/
inductive PC where
  | start
  | locked
  | check
  | taking (k : ℕ)
  | waiting
  | borrowed
  | finished
deriving DecidableEq

/-- One goroutine of the sweep: the `n` it passed to `requireN`,
the hosts it currently holds, and its program counter. -/
structure Agent where
  want : ℕ
  held : List HostSpec
  pc : PC
deriving DecidableEq

/-- Global state of the sweep scheduler: the channel contents `pool`,
the channel capacity `cap` (`len(hosts)`, line 70), the `banker` mutex,
and the goroutines. -/
structure SchedState where
  pool : List HostSpec
  chCap : ℕ
  lockHeld : Bool
  agents : List Agent
deriving DecidableEq

/-- Replace agent `i` in the scheduler state. -/
def setAgent (s : SchedState) (i : ℕ) (a : Agent) : SchedState :=
  { s with agents := s.agents.set i a }

/-- Set the mutex flag in the scheduler state. -/
def withLock (s : SchedState) (b : Bool) : SchedState :=
  { s with lockHeld := b }

/-- Set the pool contents in the scheduler state. -/
def withPool (s : SchedState) (p : List HostSpec) : SchedState :=
  { s with pool := p }

/-- Set the program counter of an agent. -/
def atPC (a : Agent) (p : PC) : Agent := { a with pc := p }

/-- One atomic micro-step of the concurrent scheduler, translated from
lines 75-101 and 111-131 of `run-experiments.go`.  Note that `lock` is
immediately followed by `unlock` in program order (lines 80-81): the
mutex is released BEFORE the capacity check of line 82.  In `checkYes`
with `want = 0` the check `len(pool) >= 0` passes but the take loop
runs zero times, `hs` stays the nil slice, and the caller's
`if got != nil` fails, so the requester lands on the ticker wait
(`PC.waiting`), not in `borrowed`. -/
inductive Step : SchedState → SchedState → Prop where
  | lock : ∀ (s : SchedState) (i : ℕ) (a : Agent),
      s.agents[i]? = some a → a.pc = PC.start → s.lockHeld = false →
      Step s (withLock (setAgent s i (atPC a PC.locked)) true)
  | unlock : ∀ (s : SchedState) (i : ℕ) (a : Agent),
      s.agents[i]? = some a → a.pc = PC.locked →
      Step s (withLock (setAgent s i (atPC a PC.check)) false)
  | checkYes : ∀ (s : SchedState) (i : ℕ) (a : Agent),
      s.agents[i]? = some a → a.pc = PC.check → a.want ≤ s.pool.length →
      Step s (setAgent s i (atPC a (if a.want = 0 then PC.waiting else PC.taking 0)))
  | checkNo : ∀ (s : SchedState) (i : ℕ) (a : Agent),
      s.agents[i]? = some a → a.pc = PC.check → s.pool.length < a.want →
      Step s (setAgent s i (atPC a PC.waiting))
  | tick : ∀ (s : SchedState) (i : ℕ) (a : Agent),
      s.agents[i]? = some a → a.pc = PC.waiting →
      Step s (setAgent s i (atPC a PC.start))
  | take : ∀ (s : SchedState) (i : ℕ) (a : Agent) (k : ℕ) (h : HostSpec)
      (rest : List HostSpec),
      s.agents[i]? = some a → a.pc = PC.taking k → k < a.want →
      s.pool = h :: rest →
      Step s (withPool (setAgent s i
        ⟨a.want, a.held ++ [h],
         if k + 1 = a.want then PC.borrowed else PC.taking (k + 1)⟩) rest)
  | ret : ∀ (s : SchedState) (i : ℕ) (a : Agent) (h : HostSpec)
      (rest : List HostSpec),
      s.agents[i]? = some a → a.pc = PC.borrowed → a.held = h :: rest →
      s.pool.length < s.chCap →
      Step s (withPool (setAgent s i ⟨a.want, rest, a.pc⟩) (s.pool ++ [h]))
  | finish : ∀ (s : SchedState) (i : ℕ) (a : Agent),
      s.agents[i]? = some a → a.pc = PC.borrowed → a.held = [] →
      Step s (setAgent s i (atPC a PC.finished))

/-- Reachability: zero or more scheduler micro-steps. -/
def Reachable (s s' : SchedState) : Prop := Relation.ReflTransGen Step s s'

/-- Number of hosts currently borrowed (held by some goroutine). -/
def heldSum (s : SchedState) : ℕ := (s.agents.map (fun a => a.held.length)).sum

/-- Initial state of `runAllExperiments`: the pool channel filled with all
hosts (lines 70-73), the mutex free, and one goroutine per requested
experiment, each yet to run, holding nothing. -/
def initState (hosts : List HostSpec) (wants : List ℕ) : SchedState :=
  ⟨hosts, hosts.length, false, wants.map (fun n => ⟨n, [], PC.start⟩)⟩

theorem sum_map_set (f : Agent → ℕ) :
    ∀ (l : List Agent) (i : ℕ) (a b : Agent), l[i]? = some a →
      ((l.set i b).map f).sum + f a = (l.map f).sum + f b := by
  intro l
  induction l with
  | nil => intro i a b h; simp at h
  | cons x xs ih =>
    intro i a b h
    cases i with
    | zero =>
      simp at h
      subst h
      simp [List.set]
      omega
    | succ j =>
      simp at h
      have ih2 := ih j a b h
      simp only [List.set, List.map_cons, List.sum_cons]
      omega

theorem heldSum_setAgent (s : SchedState) (i : ℕ) (a b : Agent)
    (hget : s.agents[i]? = some a) :
    heldSum (setAgent s i b) + a.held.length = heldSum s + b.held.length :=
  sum_map_set (fun a => a.held.length) s.agents i a b hget

/-- Every micro-step conserves borrowed-plus-pooled hosts. -/
theorem step_conserves (s s' : SchedState) (hstep : Step s s') :
    heldSum s' + s'.pool.length = heldSum s + s.pool.length := by
  cases hstep with
  | lock i a hget hpc hlock =>
    have h1 := heldSum_setAgent s i a (atPC a PC.locked) hget
    simp only [withLock, setAgent, atPC, heldSum] at *
    omega
  | unlock i a hget hpc =>
    have h1 := heldSum_setAgent s i a (atPC a PC.check) hget
    simp only [withLock, setAgent, atPC, heldSum] at *
    omega
  | checkYes i a hget hpc hle =>
    have h1 := heldSum_setAgent s i a (atPC a (if a.want = 0 then PC.waiting else PC.taking 0)) hget
    simp only [setAgent, atPC, heldSum] at *
    omega
  | checkNo i a hget hpc hlt =>
    have h1 := heldSum_setAgent s i a (atPC a PC.waiting) hget
    simp only [setAgent, atPC, heldSum] at *
    omega
  | tick i a hget hpc =>
    have h1 := heldSum_setAgent s i a (atPC a PC.start) hget
    simp only [setAgent, atPC, heldSum] at *
    omega
  | take i a k h rest hget hpc hk hpool =>
    have h1 := heldSum_setAgent s i a
      ⟨a.want, a.held ++ [h], if k + 1 = a.want then PC.borrowed else PC.taking (k + 1)⟩ hget
    simp only [withPool, setAgent, heldSum] at *
    simp only [List.length_append, List.length_cons, List.length_nil] at h1
    rw [hpool]
    simp only [List.length_cons]
    omega
  | ret i a h rest hget hpc hheld hcap =>
    have h1 := heldSum_setAgent s i a ⟨a.want, rest, a.pc⟩ hget
    simp only [withPool, setAgent, heldSum] at *
    rw [hheld] at h1
    simp only [List.length_cons, List.length_append, List.length_nil] at *
    omega
  | finish i a hget hpc hheld =>
    have h1 := heldSum_setAgent s i a (atPC a PC.finished) hget
    simp only [setAgent, atPC, heldSum] at *
    omega

/-- Conservation along any execution. -/
theorem reachable_conserves (s s' : SchedState) (h : Reachable s s') :
    heldSum s' + s'.pool.length = heldSum s + s.pool.length := by
  induction h with
  | refl => rfl
  | tail hab hbc ih =>
    rw [step_conserves _ _ hbc]
    exact ih

/-- C2: for every interleaving of concurrent `requireN`/`returnAll` calls
starting from the pool filled with all hosts, the number of hosts
currently borrowed never exceeds the initial number of hosts. -/
theorem borrowed_le_initial (hosts : List HostSpec) (wants : List ℕ)
    (s : SchedState) (h : Reachable (initState hosts wants) s) :
    heldSum s ≤ hosts.length := by
  have hcons := reachable_conserves _ _ h
  have h0 : heldSum (initState hosts wants) = 0 := by
    simp only [heldSum, initState, List.map_map]
    exact List.sum_eq_zero (by simp)
  simp only [initState] at hcons h0
  omega

/-- Witness for C2 at a concrete instant of a concrete execution. -/
theorem borrowed_le_initial_witness :
    heldSum (initState [dH] [1]) ≤ ([dH] : List HostSpec).length :=
  borrowed_le_initial [dH] [1] (initState [dH] [1]) Relation.ReflTransGen.refl

/-! ## The `requireN` check-then-take race (C1)

`requireN` acquires and immediately releases `banker` (lines 80-81)
BEFORE the capacity check of line 82, so no gate covers the check
together with the `n` channel receives of lines 84-86.  The concrete
execution below exhibits this: with 3 hosts pooled and two concurrent
`requireN(2)` callers, both pass the capacity check, the first taker
drains 2 hosts, and the second is left blocked mid-take holding 1 host
with the pool empty and the mutex free. -/

/-- Three concrete hosts for the race scenario. -/
def hA : HostSpec := ⟨"10.0.0.1", 4, ""⟩

/-- Second concrete host. -/
def hB : HostSpec := ⟨"10.0.0.2", 4, ""⟩

/-- Third concrete host. -/
def hC : HostSpec := ⟨"10.0.0.3", 4, ""⟩

/-- Initial state: pool `[hA, hB, hC]`, two goroutines each about to call
`requireN 2`. -/
def raceInit : SchedState := initState [hA, hB, hC] [2, 2]

/-- The state reached after the interleaving described above: agent 0
completed `requireN 2` (holds `[hA, hB]`), agent 1 passed the
`len(pool) >= 2` check but has received only `hC` and is blocked on an
empty pool; the `banker` mutex is free. -/
def raceState : SchedState :=
  ⟨[], 3, false, [⟨2, [hA, hB], PC.borrowed⟩, ⟨2, [hC], PC.taking 1⟩]⟩

/-- C1 (refuted): the capacity check and the take are NOT one atomic
step.  `raceState` is reachable: both requesters pass the check of line
82 concurrently, after which one of them can only take 1 of its 2 hosts
and blocks inside the take loop, with the pool empty and the `banker`
mutex free — impossible if one synchronized gate covered check and
take.  (Hosts are never double-allocated — channel receives are atomic —
but the gate the claim asserts does not exist.) -/
theorem requireN_check_take_not_atomic :
    Reachable raceInit raceState ∧
    raceState.pool = [] ∧
    raceState.lockHeld = false ∧
    raceState.agents[1]? = some ⟨2, [hC], PC.taking 1⟩ ∧
    raceState.agents[0]? = some ⟨2, [hA, hB], PC.borrowed⟩ := by
  refine ⟨?_, rfl, rfl, rfl, rfl⟩
  refine Relation.ReflTransGen.head (Step.lock raceInit 1 ⟨2, [], PC.start⟩ rfl rfl rfl) ?_
  refine Relation.ReflTransGen.head (Step.unlock _ 1 ⟨2, [], PC.locked⟩ rfl rfl) ?_
  refine Relation.ReflTransGen.head
    (Step.checkYes _ 1 ⟨2, [], PC.check⟩ rfl rfl (by decide)) ?_
  refine Relation.ReflTransGen.head (Step.lock _ 0 ⟨2, [], PC.start⟩ rfl rfl rfl) ?_
  refine Relation.ReflTransGen.head (Step.unlock _ 0 ⟨2, [], PC.locked⟩ rfl rfl) ?_
  refine Relation.ReflTransGen.head
    (Step.checkYes _ 0 ⟨2, [], PC.check⟩ rfl rfl (by decide)) ?_
  refine Relation.ReflTransGen.head
    (Step.take _ 0 ⟨2, [], PC.taking 0⟩ 0 hA [hB, hC] rfl rfl (by decide) rfl) ?_
  refine Relation.ReflTransGen.head
    (Step.take _ 0 ⟨2, [hA], PC.taking 1⟩ 1 hB [hC] rfl rfl (by decide) rfl) ?_
  refine Relation.ReflTransGen.head
    (Step.take _ 1 ⟨2, [], PC.taking 0⟩ 0 hC [] rfl rfl (by decide) rfl) ?_
  exact Relation.ReflTransGen.refl

/-! ## Sequential contract of `requireN` (C4)

One iteration of the retry loop of `requireN` (lines 78-95), executed
with no interference from other goroutines: the `got` closure checks
`len(pool) >= n` and, if it holds, performs `n` channel receives, each
popping the front of the FIFO pool; otherwise it returns `nil` without
touching the pool.  The caller then tests `if got != nil` (line 91):
`var hs []rch.HostSpec` starts as the nil slice and `append` runs only
inside the take loop, so for `n = 0` the closure returns nil even
though the capacity check passed, the caller treats the attempt as
failed, and `requireN(0)` blocks on the ticker and retries forever. -/

/-- `n` uninterfered channel receives (`hs = append(hs, <-pool)`,
lines 84-86): pops the first `n` pool entries in order; `none` when a
receive would block. -/
def recvN : ℕ → List HostSpec → List HostSpec → Option (List HostSpec × List HostSpec)
  | 0, acc, pool => some (acc, pool)
  | n + 1, acc, h :: rest => recvN n (acc ++ [h]) rest
  | _ + 1, _, [] => none

/-- The `got` closure (lines 79-90): capacity check, then `n` receives;
`none` is the `return nil` branch of line 89. -/
def gotClosure (n : ℕ) (pool : List HostSpec) :
    Option (List HostSpec × List HostSpec) :=
  if n ≤ pool.length then recvN n [] pool else none

/-- One uninterfered attempt of the loop body of `requireN` as seen by
the caller (lines 79-93): the closure's result passed through the
`if got != nil` test of line 91 — an empty `hs` IS the nil slice (zero
appends), so it fails the test and the attempt yields `none` (nothing
removed, caller retries after the ticker). -/
def requireNAttempt (n : ℕ) (pool : List HostSpec) :
    Option (List HostSpec × List HostSpec) :=
  match gotClosure n pool with
  | some gp => if gp.1.isEmpty then none else some gp
  | none => none

theorem recvN_spec (n : ℕ) :
    ∀ (acc pool : List HostSpec), n ≤ pool.length →
      recvN n acc pool = some (acc ++ pool.take n, pool.drop n) := by
  induction n with
  | zero => intro acc pool _; simp [recvN]
  | succ m ih =>
    intro acc pool hlen
    match pool with
    | [] => simp at hlen
    | h :: rest =>
      simp only [recvN]
      rw [ih (acc ++ [h]) rest (by simpa using hlen)]
      simp

/-- A `want = 0` requester can only ever sit before the lock, between
lock and unlock, before the check, or on the ticker — never inside the
take loop, in `borrowed`, or in `finished`. -/
def zeroWaits (a : Agent) : Prop :=
  a.want = 0 →
    (a.pc = PC.start ∨ a.pc = PC.locked ∨ a.pc = PC.check ∨ a.pc = PC.waiting)

theorem agents_set_mem (P : Agent → Prop) :
    ∀ (l : List Agent) (i : ℕ) (b : Agent),
      (∀ (j : ℕ) (a : Agent), l[j]? = some a → P a) → P b →
      ∀ (j : ℕ) (a : Agent), (l.set i b)[j]? = some a → P a := by
  intro l
  induction l with
  | nil => intro i b _ _ j a h; simp at h
  | cons x xs ih =>
    intro i b hl hb j a h
    cases i with
    | zero =>
      cases j with
      | zero =>
        simp [List.set] at h
        subst h
        exact hb
      | succ j' =>
        simp [List.set] at h
        exact hl (j' + 1) a (by simpa using h)
    | succ i' =>
      cases j with
      | zero =>
        simp [List.set] at h
        subst h
        exact hl 0 x (by simp)
      | succ j' =>
        simp [List.set] at h
        exact ih i' b (fun j a hja => hl (j + 1) a (by simpa using hja)) hb j' a h

theorem step_zero_waits (s s' : SchedState) (hstep : Step s s')
    (hs : ∀ (j : ℕ) (a : Agent), s.agents[j]? = some a → zeroWaits a) :
    ∀ (j : ℕ) (a : Agent), s'.agents[j]? = some a → zeroWaits a := by
  cases hstep with
  | lock i a hget hpc hlock =>
    exact agents_set_mem zeroWaits s.agents i (atPC a PC.locked) hs
      (fun _ => Or.inr (Or.inl rfl))
  | unlock i a hget hpc =>
    exact agents_set_mem zeroWaits s.agents i (atPC a PC.check) hs
      (fun _ => Or.inr (Or.inr (Or.inl rfl)))
  | checkYes i a hget hpc hle =>
    refine agents_set_mem zeroWaits s.agents i _ hs ?_
    intro h0
    have h0' : a.want = 0 := h0
    right; right; right
    show (if a.want = 0 then PC.waiting else PC.taking 0) = PC.waiting
    rw [if_pos h0']
  | checkNo i a hget hpc hlt =>
    exact agents_set_mem zeroWaits s.agents i (atPC a PC.waiting) hs
      (fun _ => Or.inr (Or.inr (Or.inr rfl)))
  | tick i a hget hpc =>
    exact agents_set_mem zeroWaits s.agents i (atPC a PC.start) hs
      (fun _ => Or.inl rfl)
  | take i a k h rest hget hpc hk hpool =>
    refine agents_set_mem zeroWaits s.agents i _ hs ?_
    intro h0
    have h0' : a.want = 0 := h0
    omega
  | ret i a h rest hget hpc hheld hcap =>
    refine agents_set_mem zeroWaits s.agents i _ hs ?_
    intro h0
    have h0' : a.want = 0 := h0
    exact absurd (hs i a hget h0')
      (by rw [hpc]; rintro (hw | hw | hw | hw) <;> exact PC.noConfusion hw)
  | finish i a hget hpc hheld =>
    refine agents_set_mem zeroWaits s.agents i (atPC a PC.finished) hs ?_
    intro h0
    have h0' : a.want = 0 := h0
    exact absurd (hs i a hget h0')
      (by rw [hpc]; rintro (hw | hw | hw | hw) <;> exact PC.noConfusion hw)

theorem init_zero_waits (hosts : List HostSpec) (wants : List ℕ) :
    ∀ (j : ℕ) (a : Agent),
      (initState hosts wants).agents[j]? = some a → zeroWaits a := by
  intro j a h
  simp only [initState, List.getElem?_map] at h
  cases hw : wants[j]? with
  | none => rw [hw] at h; simp at h
  | some n =>
    rw [hw] at h
    simp at h
    subst h
    exact fun _ => Or.inl rfl

theorem reachable_zero_waits (s0 s : SchedState) (h : Reachable s0 s)
    (h0 : ∀ (j : ℕ) (a : Agent), s0.agents[j]? = some a → zeroWaits a) :
    ∀ (j : ℕ) (a : Agent), s.agents[j]? = some a → zeroWaits a := by
  induction h with
  | refl => exact h0
  | tail hab hbc ih => exact step_zero_waits _ _ hbc ih

/-- C4 (refuted as stated, at `n = 0`): `n = 0` never exceeds the pool
size, yet `requireN(0)` does not return a (0-host) allocation — the
closure returns the nil slice (`var hs []rch.HostSpec`, zero appends),
the caller's `if got != nil` fails, and the attempt yields nothing:
with one pooled host the attempt at `n = 0` is `none`, against the
claim's promised successful return. -/
theorem requireN_zero_attempt_fails :
    requireNAttempt 0 [hA] = none ∧
    gotClosure 0 [hA] = some ([], [hA]) ∧
    0 ≤ ([hA] : List HostSpec).length :=
  ⟨rfl, rfl, by decide⟩

/-- C4 (amended): for every `n ≥ 1` with at most `n` hosts pooled,
`requireN n` removes exactly the first `n` hosts (the pool shrinks by
exactly `n` and decomposes as taken-plus-remainder); when fewer than
`n` are pooled the attempt removes nothing (`nil`), and the blocked
requester steps to the ticker wait and back to a fresh retry, leaving
the pool untouched; for `n = 0` every attempt fails (the nil slice
fails the caller's `got != nil` test), so `requireN(0)` removes
nothing and polls forever: a `want = 0` requester never reaches the
`borrowed` or `finished` state in any execution. -/
theorem requireN_contract (n : ℕ) (pool : List HostSpec) :
    (1 ≤ n → n ≤ pool.length →
      requireNAttempt n pool = some (pool.take n, pool.drop n) ∧
      (pool.take n).length = n ∧
      (pool.drop n).length + n = pool.length ∧
      pool.take n ++ pool.drop n = pool) ∧
    (pool.length < n → requireNAttempt n pool = none) ∧
    requireNAttempt 0 pool = none ∧
    (∀ (s : SchedState) (i : ℕ) (a : Agent),
      s.agents[i]? = some a → a.pc = PC.check → s.pool.length < a.want →
      Step s (setAgent s i (atPC a PC.waiting)) ∧
      (setAgent s i (atPC a PC.waiting)).pool = s.pool) ∧
    (∀ (s : SchedState) (i : ℕ) (a : Agent),
      s.agents[i]? = some a → a.pc = PC.waiting →
      Step s (setAgent s i (atPC a PC.start)) ∧
      (setAgent s i (atPC a PC.start)).pool = s.pool) ∧
    (∀ (hosts : List HostSpec) (wants : List ℕ) (s : SchedState),
      Reachable (initState hosts wants) s →
      ∀ (j : ℕ) (a : Agent), s.agents[j]? = some a → a.want = 0 →
        a.pc ≠ PC.borrowed ∧ a.pc ≠ PC.finished) := by
  refine ⟨?_, ?_, ?_, ?_, ?_, ?_⟩
  · intro h1 hlen
    have hne : (pool.take n).isEmpty = false := by
      cases htk : pool.take n with
      | nil =>
        have hlen0 := congrArg List.length htk
        simp only [List.length_take, List.length_nil] at hlen0
        omega
      | cons x xs => rfl
    refine ⟨?_, ?_, ?_, ?_⟩
    · simp only [requireNAttempt, gotClosure, if_pos hlen]
      rw [recvN_spec n [] pool hlen]
      simp only [List.nil_append, hne]
      simp
    · simp [List.length_take]
      omega
    · simp [List.length_drop]
      omega
    · exact List.take_append_drop n pool
  · intro hlt
    simp only [requireNAttempt, gotClosure]
    rw [if_neg (by omega)]
  · simp only [requireNAttempt, gotClosure]
    rw [if_pos (by omega)]
    rfl
  · intro s i a hget hpc hlt
    exact ⟨Step.checkNo s i a hget hpc hlt, rfl⟩
  · intro s i a hget hpc
    exact ⟨Step.tick s i a hget hpc, rfl⟩
  · intro hosts wants s hr j a hget h0
    rcases reachable_zero_waits (initState hosts wants) s hr
      (init_zero_waits hosts wants) j a hget h0 with h | h | h | h <;>
      rw [h] <;> exact ⟨by decide, by decide⟩

/-- Witness for C4: with pool `[hA, hB, hC]`, `requireN 2` takes exactly
`[hA, hB]` and leaves `[hC]`; `requireN 4` removes nothing; an attempt
at `requireN 0` fails. -/
theorem requireN_contract_witness :
    requireNAttempt 2 [hA, hB, hC] = some ([hA, hB], [hC]) ∧
    requireNAttempt 4 [hA, hB, hC] = none ∧
    requireNAttempt 0 [hA, hB, hC] = none :=
  ⟨((requireN_contract 2 [hA, hB, hC]).1 (by decide) (by decide)).1,
   (requireN_contract 4 [hA, hB, hC]).2.1 (by decide),
   (requireN_contract 0 [hA, hB, hC]).2.2.1⟩

/-! ## The experiment goroutine body and `returnAll` (C3)

Lines 111-131: the goroutine borrows `hs := requireN(len(partition))`,
immediately defers `returnAll(hs)`, runs the experiment, and either
returns early on error (no record) or appends one record.  Go `defer`
runs the deferred call exactly once on every exit path of the
function, so the embedding produces the returned hosts on both paths. -/

/-- Outcome of `runExperiment` as seen by the goroutine body: either a
`Result` or an error (timeout, transport failure, plan building or
rescheduling failure). -/
inductive ExpOutcome where
  | ok (r : Result)
  | err (e : String)
deriving DecidableEq

/-- The goroutine body of `run` (lines 111-131) after `requireN`
returned `hs`: yields the hosts passed to the deferred `returnAll`
(exactly once, on every path) and the record appended to `records`
(none on the error path). -/
def runTask (algo : KungFu_AllReduceAlgo) (partition : List Int)
    (hs : List HostSpec) (outcome : ExpOutcome) :
    List HostSpec × Option Record :=
  match outcome with
  | ExpOutcome.err _ => (hs, none)
  | ExpOutcome.ok r => (hs, some ⟨partition, algo, r⟩)

/-- C3: on every path of the goroutine body — experiment success,
experiment error, record appended — the hosts handed to `returnAll` are
exactly the borrowed ones: the same list, hence each borrowed host is
returned exactly once (identical multiplicities, no leak, no double
return); a record is appended exactly on the success path. -/
theorem hosts_returned_exactly_once (algo : KungFu_AllReduceAlgo)
    (partition : List Int) (hs : List HostSpec) (outcome : ExpOutcome) :
    (runTask algo partition hs outcome).1 = hs ∧
    (∀ h : HostSpec, ((runTask algo partition hs outcome).1).count h = hs.count h) ∧
    (∀ e, outcome = ExpOutcome.err e → (runTask algo partition hs outcome).2 = none) ∧
    (∀ r, outcome = ExpOutcome.ok r →
      (runTask algo partition hs outcome).2 = some ⟨partition, algo, r⟩) := by
  cases outcome with
  | ok r => exact ⟨rfl, fun _ => rfl, fun e he => by simp at he, fun r' hr => by
      simp only [ExpOutcome.ok.injEq] at hr
      subst hr
      rfl⟩
  | err e => exact ⟨rfl, fun _ => rfl, fun e' he => rfl, fun r hr => by simp at hr⟩

/-- Witness for C3 on a concrete failing and a concrete succeeding
outcome. -/
theorem hosts_returned_exactly_once_witness :
    (runTask KungFu_AllReduceAlgo.KungFu_Simple [1] [hA] (ExpOutcome.err "timeout")).1 = [hA] ∧
    (runTask KungFu_AllReduceAlgo.KungFu_Simple [1] [hA] (ExpOutcome.err "timeout")).2 = none ∧
    (runTask KungFu_AllReduceAlgo.KungFu_Simple [1] [hA] (ExpOutcome.ok ⟨1, 2⟩)).2 =
      some ⟨[1], KungFu_AllReduceAlgo.KungFu_Simple, ⟨1, 2⟩⟩ :=
  ⟨(hosts_returned_exactly_once KungFu_AllReduceAlgo.KungFu_Simple [1] [hA]
      (ExpOutcome.err "timeout")).1,
   (hosts_returned_exactly_once KungFu_AllReduceAlgo.KungFu_Simple [1] [hA]
      (ExpOutcome.err "timeout")).2.2.1 "timeout" rfl,
   (hosts_returned_exactly_once KungFu_AllReduceAlgo.KungFu_Simple [1] [hA]
      (ExpOutcome.ok ⟨1, 2⟩)).2.2.2 ⟨1, 2⟩ rfl⟩

/-! ## The sweep of `runAllExperiments` (C5)

Lines 134-151: for each of the four algorithms, `run` is invoked on the
eight partitions below.  `run` (lines 106-132) skips an experiment
whose partition needs more hosts than exist (line 107), and otherwise
spawns the goroutine whose record-appending behaviour is `runTask`.
The shared `records` slice is appended to under `lock`; the model lists
the records in task-spawn order (one linearization of the
lock-protected appends — the claims here are about which records are
present).  The experiment outcome (`runExperiment`'s error or result)
is abstracted as an oracle `f`. -/

/-- The eight partitions of lines 141-149, in program order. -/
def sweepPartitions : List (List Int) :=
  [[1], [2], [3], [4], [1, 3], [2, 2], [3, 3], [4, 4]]

/-- The four algorithms of lines 134-139, in program order. -/
def algos : List KungFu_AllReduceAlgo :=
  [KungFu_AllReduceAlgo.KungFu_Simple, KungFu_AllReduceAlgo.KungFu_Ring,
   KungFu_AllReduceAlgo.KungFu_Clique, KungFu_AllReduceAlgo.KungFu_Tree]

/-- The 32 `(algo, partition)` experiments submitted by lines 140-151. -/
def sweep : List (KungFu_AllReduceAlgo × List Int) :=
  algos.flatMap (fun a => sweepPartitions.map (fun p => (a, p)))

/-- `runAllExperiments` (lines 69-155) at the level of collected
records: each feasible experiment contributes its `runTask` record,
infeasible ones are skipped at line 107, failed ones append nothing. -/
def runAllExperimentsModel (hosts : List HostSpec)
    (f : KungFu_AllReduceAlgo → List Int → ExpOutcome) : List Record :=
  sweep.filterMap (fun ap =>
    if hosts.length < ap.2.length then none
    else (runTask ap.1 ap.2 [] (f ap.1 ap.2)).2)

/-- C5: a record for `(a, p)` is collected exactly when `(a, p)` is one
of the submitted experiments, enough hosts exist, and its own outcome
is a success — for EVERY outcome oracle `f`.  In particular an
experiment whose outcome is an error (timeout, transport failure, plan
building or rescheduling error) is omitted from the result log, every
succeeding sibling's record is still collected whatever errors occur
elsewhere, and `runAllExperimentsModel` is total, so the sweep always
returns normally. -/
theorem sweep_failure_isolation (hosts : List HostSpec)
    (f : KungFu_AllReduceAlgo → List Int → ExpOutcome)
    (a : KungFu_AllReduceAlgo) (p : List Int) (r : Result) :
    (⟨p, a, r⟩ : Record) ∈ runAllExperimentsModel hosts f ↔
      ((a, p) ∈ sweep ∧ p.length ≤ hosts.length ∧ f a p = ExpOutcome.ok r) := by
  simp only [runAllExperimentsModel, List.mem_filterMap]
  constructor
  · rintro ⟨⟨a', p'⟩, hmem, heq⟩
    by_cases hfeas : hosts.length < p'.length
    · simp [if_pos hfeas] at heq
    · rw [if_neg hfeas] at heq
      match hout : f a' p' with
      | ExpOutcome.err e => rw [hout] at heq; simp [runTask] at heq
      | ExpOutcome.ok r' =>
        rw [hout] at heq
        simp only [runTask, Option.some.injEq, Record.mk.injEq] at heq
        obtain ⟨hp, ha, hr⟩ := heq
        subst hp; subst ha; subst hr
        exact ⟨hmem, by omega, hout⟩
  · rintro ⟨hmem, hfeas, hout⟩
    refine ⟨(a, p), hmem, ?_⟩
    show (if hosts.length < p.length then none
          else (runTask a p [] (f a p)).2) = some ⟨p, a, r⟩
    rw [if_neg (by omega), hout]
    rfl

/-! ## Scraping: `grep` and `parseResult` (C9)

`grep` (lines 228-236) collects, in order, the input lines for which
`strings.Contains(line, pattern)` holds.  `parseResult` (lines 238-240)
applies `fmt.Sscanf(line, "Img/sec per /gpu:0: %f +-%f", &r.Mean,
&r.Conf)`: literal text must match, `%f` scans a decimal number, and
`Sscanf` assigns the successfully scanned arguments in order, leaving
the rest untouched.  `%f` is modelled at the level of plain decimal
literals (sign, digits, optional fraction), the forms this program's
scraped lines use. -/

/-- Does the first character list start with the second
(helper for `strings.Contains`)? -/
def hasPre : List Char → List Char → Bool
  | _, [] => true
  | [], _ :: _ => false
  | c :: cs, p :: ps => c == p && hasPre cs ps

/-- `strings.Contains` on character lists: some suffix starts with the
pattern. -/
def subIn : List Char → List Char → Bool
  | [], pat => pat.isEmpty
  | s@(_ :: rest), pat => hasPre s pat || subIn rest pat

/-- `strings.Contains(s, pat)`. -/
def strContains (s pat : String) : Bool := subIn s.toList pat.toList

/-- `grep` (lines 228-236): the loop appends each line containing the
pattern to `lines`, in input order. -/
def grep (pattern : String) : List String → List String
  | [] => []
  | line :: rest =>
    if strContains line pattern then line :: grep pattern rest
    else grep pattern rest

theorem grep_eq_filter (pattern : String) (input : List String) :
    grep pattern input = input.filter (fun l => strContains l pattern) := by
  induction input with
  | nil => rfl
  | cons line rest ih =>
    simp only [grep, List.filter_cons]
    by_cases h : strContains line pattern
    · rw [if_pos h, ih, if_pos h]
    · rw [if_neg h, ih, if_neg h]

/-- One decimal digit?  (for the `%f` model). -/
def isDig (c : Char) : Bool := '0' ≤ c && c ≤ '9'

/-- Value of a decimal digit character. -/
def digVal (c : Char) : ℕ := c.toNat - '0'.toNat

/-- Split the longest digit run off the front. -/
def takeDigits : List Char → List ℕ × List Char
  | [] => ([], [])
  | c :: cs =>
    if isDig c then
      let p := takeDigits cs
      (digVal c :: p.1, p.2)
    else ([], c :: cs)

/-- Digit list to natural number, most significant first. -/
def digitsToNat (ds : List ℕ) : ℕ := ds.foldl (fun acc d => 10 * acc + d) 0

/-- Model of one `%f` conversion of `fmt.Sscanf` on decimal input:
optional sign, integer digits, optional fraction; yields the scanned
decimal as a numerator and a power-of-ten denominator, plus the
unconsumed input. -/
def scanFloat (cs : List Char) : Option ((Int × ℕ) × List Char) :=
  let sp : Bool × List Char :=
    match cs with
    | '-' :: rest => (true, rest)
    | '+' :: rest => (false, rest)
    | _ => (false, cs)
  let ip := takeDigits sp.2
  match ip.2 with
  | '.' :: cs3 =>
    let fp := takeDigits cs3
    if ip.1.isEmpty && fp.1.isEmpty then none
    else
      let n : Int := (digitsToNat ip.1 * 10 ^ fp.1.length + digitsToNat fp.1 : ℕ)
      some ((if sp.1 then -n else n, 10 ^ fp.1.length), fp.2)
  | _ =>
    if ip.1.isEmpty then none
    else
      let n : Int := (digitsToNat ip.1 : ℕ)
      some ((if sp.1 then -n else n, 1), ip.2)

/-- The rational value of a scanned decimal. -/
def toRat (v : Int × ℕ) : ℚ := (v.1 : ℚ) / (v.2 : ℚ)

/-- Match a literal format fragment, yielding the rest of the input. -/
def matchLit : List Char → List Char → Option (List Char)
  | [], cs => some cs
  | l :: ls, c :: cs => if c = l then matchLit ls cs else none
  | _ :: _, [] => none

/-- `parseResult` (lines 238-240): `fmt.Sscanf` with the format
`Img/sec per /gpu:0: %f +-%f`; each successfully scanned verb assigns
the corresponding field of `r`, and scanning stops at the first
mismatch, leaving later fields untouched. -/
def parseResult (line : String) (r : Result) : Result :=
  match matchLit "Img/sec per /gpu:0: ".toList line.toList with
  | none => r
  | some rest =>
    match scanFloat rest with
    | none => r
    | some mv =>
      let r1 : Result := ⟨toRat mv.1, r.Conf⟩
      match matchLit " +-".toList mv.2 with
      | none => r1
      | some rest3 =>
        match scanFloat rest3 with
        | none => r1
        | some cv => ⟨toRat mv.1, toRat cv.1⟩

/-- C9: the sample stdout line parses to mean `123.4` and confidence
interval `5.6`, and `grep` selects exactly (same lines, order and
multiplicity) the input lines containing the pattern, so a line without
the label is dropped by `grep` rather than producing an error. -/
theorem scraping_contract :
    parseResult "Img/sec per /gpu:0: 123.4 +-5.6" ⟨0, 0⟩ =
      ⟨(1234 : ℚ) / 10, (56 : ℚ) / 10⟩ ∧
    (∀ (pattern : String) (input : List String),
      grep pattern input = input.filter (fun l => strContains l pattern)) ∧
    (∀ (pattern line : String) (input : List String),
      line ∈ grep pattern input ↔ line ∈ input ∧ strContains line pattern = true) := by
  refine ⟨?_, grep_eq_filter, ?_⟩
  · have e1 : matchLit "Img/sec per /gpu:0: ".toList
        "Img/sec per /gpu:0: 123.4 +-5.6".toList = some "123.4 +-5.6".toList := by decide
    have e2 : scanFloat "123.4 +-5.6".toList = some ((1234, 10), " +-5.6".toList) := by decide
    have e3 : matchLit " +-".toList " +-5.6".toList = some "5.6".toList := by decide
    have e4 : scanFloat "5.6".toList = some ((56, 10), "".toList) := by decide
    simp only [parseResult, e1, e2, e3, e4, toRat]
    norm_num
  · intro pattern line input
    rw [grep_eq_filter]
    simp [List.mem_filter]

/-! ## `runExperiment` and the missing-pattern path (C6)

Lines 157-194.  After `reschedule` and `CreateProcs`, the measured
closure runs `RemoteRunAll`, then scans the per-process captured stdout
for the first result whose lines contain the label, parses that line
into `res`, and returns `RemoteRunAll`'s error.  `res` is declared as
`var res Result` — the zero value — and is returned with a nil error
whenever the run itself succeeded, REGARDLESS of whether any line
matched.  `reschedule` (lines 196-210) is embedded further below; here
it is used through `reschedule`.  `CreateProcs` and `RemoteRunAll` are
external collaborators abstracted as error/result oracles. -/

/-- The label grepped for at line 182. -/
def resultLabel : String := "Img/sec per /gpu:0"

/-- Captured output of one process as returned by `RemoteRunAll`
(the `r.Stdout` field used at line 182). -/
structure ProcResult where
  Stdout : List String
deriving DecidableEq

/-- The scraping loop of lines 181-186: walk the results; at the first
one whose stdout greps nonempty for the label, parse the first matching
line into `res` and break. -/
def scrapeResults : List ProcResult → Result → Result
  | [], res => res
  | r :: rest, res =>
    match grep resultLabel r.Stdout with
    | [] => scrapeResults rest res
    | info0 :: _ => parseResult info0 res

/-- `rescheduleGo`: the loop of lines 200-208, one iteration per
partition element, reading `hosts[i]`, failing on a slot deficit, and
appending a COPY with `Slots` overwritten.  The middle case is
unreachable under the length guard of line 197 (Go would panic). -/
def rescheduleGo : List HostSpec → List Int → Except String (List HostSpec)
  | _, [] => Except.ok []
  | [], _ :: _ => Except.error "index out of range"
  | w :: hs, p :: ps =>
    if w.Slots < p then Except.error "host slots not enough"
    else
      match rescheduleGo hs ps with
      | Except.ok ws => Except.ok ({ w with Slots := p } :: ws)
      | Except.error e => Except.error e

/-- `reschedule` (lines 196-210): length guard, then the carving loop. -/
def reschedule (hosts : List HostSpec) (partition : List Int) :
    Except String (List HostSpec) :=
  if hosts.length < partition.length then Except.error "hosts not enough"
  else rescheduleGo hosts partition

/-- `runExperiment` (lines 157-194): `reschedule`, then `CreateProcs`
(abstracted as `procsErr`), then the measured `RemoteRunAll` (its
captured outputs `runResults` and its error `runErr` abstracted), then
the scrape; errors propagate, otherwise the scraped `res` is returned —
the zero `Result` when nothing matched. -/
def runExperimentModel (hosts : List HostSpec) (partition : List Int)
    (procsErr : Option String) (runResults : List ProcResult)
    (runErr : Option String) : Except String Result :=
  match reschedule hosts partition with
  | Except.error e => Except.error e
  | Except.ok _ =>
    match procsErr with
    | some e => Except.error e
    | none =>
      let res := scrapeResults runResults ⟨0, 0⟩
      match runErr with
      | some e => Except.error e
      | none => Except.ok res

theorem scrapeResults_no_match (runResults : List ProcResult) (res : Result)
    (hall : ∀ r ∈ runResults, grep resultLabel r.Stdout = []) :
    scrapeResults runResults res = res := by
  induction runResults with
  | nil => rfl
  | cons r rest ih =>
    have h0 := hall r (by simp)
    simp only [scrapeResults, h0]
    exact ih (fun r hr => hall r (by simp [hr]))

/-- C6 (refuted at a concrete input): all processes of the experiment
complete without error, stdout holds no line containing the label —
yet `runExperiment` returns success with the zero `Result`, and the
goroutine body appends a record for the experiment instead of omitting
it. -/
theorem missing_pattern_appends_zero_record :
    runExperimentModel [⟨"10.0.0.1", 4, ""⟩] [1] none [⟨["hello world"]⟩] none =
      Except.ok ⟨0, 0⟩ ∧
    (runTask KungFu_AllReduceAlgo.KungFu_Simple [1] [⟨"10.0.0.1", 4, ""⟩]
        (ExpOutcome.ok ⟨0, 0⟩)).2 =
      some ⟨[1], KungFu_AllReduceAlgo.KungFu_Simple, ⟨0, 0⟩⟩ :=
  ⟨rfl, rfl⟩

/-- C6 (amended): for every experiment whose processes all complete
without error but whose captured stdout contains no line containing the
label, the sweep does not crash — `runExperiment` returns normally —
but the experiment is NOT omitted: it returns success with the
zero-valued `Result` (mean 0, confidence 0) and the goroutine appends a
record carrying that zero result. -/
theorem missing_pattern_zero_result (hosts : List HostSpec)
    (partition : List Int) (ws : List HostSpec)
    (runResults : List ProcResult)
    (hre : reschedule hosts partition = Except.ok ws)
    (hall : ∀ r ∈ runResults, grep resultLabel r.Stdout = []) :
    runExperimentModel hosts partition none runResults none = Except.ok ⟨0, 0⟩ ∧
    (∀ (a : KungFu_AllReduceAlgo) (hs : List HostSpec),
      (runTask a partition hs (ExpOutcome.ok ⟨0, 0⟩)).2 =
        some ⟨partition, a, ⟨0, 0⟩⟩) := by
  constructor
  · simp only [runExperimentModel, hre, scrapeResults_no_match runResults ⟨0, 0⟩ hall]
  · intro a hs
    rfl

/-- Witness for the amended C6 at the counterexample input. -/
theorem missing_pattern_zero_result_witness :
    runExperimentModel [⟨"10.0.0.1", 4, ""⟩] [1] none [⟨["hello world"]⟩] none =
      Except.ok ⟨0, 0⟩ :=
  (missing_pattern_zero_result [⟨"10.0.0.1", 4, ""⟩] [1] [⟨"10.0.0.1", 1, ""⟩]
    [⟨["hello world"]⟩] rfl (by decide)).1

/-! ## `reschedule`: carving a partition (C7, C8)

Lines 196-210.  For C8, the Go loop is also embedded with the backing
array threaded through explicitly (`rescheduleSt`): each iteration
reads `w := hosts[i]` — a VALUE copy, `rch.HostSpec` being a plain Go
struct — mutates the copy's `Slots` field, and appends it; no statement
writes back into `hosts`, so the threaded array is returned unchanged
on every branch. -/

/-- The loop of lines 201-208 with the `hosts` array `store` threaded
as explicit state: reads `store[i]` by value, never writes `store`. -/
def rescheduleStLoop (store : List HostSpec) :
    ℕ → List Int → List HostSpec → Except String (List HostSpec) × List HostSpec
  | _, [], workers => (Except.ok workers, store)
  | i, p :: ps, workers =>
    let w := store.getD i dH
    if w.Slots < p then (Except.error "host slots not enough", store)
    else rescheduleStLoop store (i + 1) ps (workers ++ [{ w with Slots := p }])

/-- `reschedule` (lines 196-210) in state-threading form: the result
and the backing array after the call. -/
def rescheduleSt (store : List HostSpec) (partition : List Int) :
    Except String (List HostSpec) × List HostSpec :=
  if store.length < partition.length then (Except.error "hosts not enough", store)
  else rescheduleStLoop store 0 partition []

theorem rescheduleStLoop_store (store : List HostSpec) :
    ∀ (ps : List Int) (i : ℕ) (workers : List HostSpec),
      (rescheduleStLoop store i ps workers).2 = store := by
  intro ps
  induction ps with
  | nil => intro i workers; rfl
  | cons p ps ih =>
    intro i workers
    simp only [rescheduleStLoop]
    by_cases h : (store.getD i dH).Slots < p
    · rw [if_pos h]
    · rw [if_neg h]
      exact ih (i + 1) (workers ++ [{ store.getD i dH with Slots := p }])

theorem rescheduleStLoop_agrees (store : List HostSpec) :
    ∀ (ps : List Int) (i : ℕ) (workers : List HostSpec),
      i + ps.length ≤ store.length →
      (rescheduleStLoop store i ps workers).1 =
        (match rescheduleGo (store.drop i) ps with
         | Except.ok ws => Except.ok (workers ++ ws)
         | Except.error e => Except.error e) := by
  intro ps
  induction ps with
  | nil =>
    intro i workers _
    simp [rescheduleStLoop, rescheduleGo]
  | cons p ps ih =>
    intro i workers hlen
    have hi : i < store.length := by simp at hlen; omega
    have hdrop : store.drop i = store.getD i dH :: store.drop (i + 1) := by
      rw [List.getD_eq_getElem store dH hi]
      exact List.drop_eq_getElem_cons hi
    rw [hdrop]
    simp only [rescheduleStLoop, rescheduleGo]
    by_cases h : (store.getD i dH).Slots < p
    · rw [if_pos h, if_pos h]
    · rw [if_neg h, if_neg h]
      rw [ih (i + 1)
        (workers ++
          [HostSpec.mk (store.getD i dH).Hostname p (store.getD i dH).PublicAddr])
        (by simp at hlen ⊢; omega)]
      match rescheduleGo (store.drop (i + 1)) ps with
      | Except.ok ws => simp
      | Except.error e => rfl

/-- C8: `reschedule` never modifies the host records it was given: the
backing array after the call is exactly the input — every record keeps
its `Hostname`, `Slots` and `PublicAddr` — on the error paths and the
success path alike, and the state-threading embedding computes the same
result as `reschedule` (the carving works on copies). -/
theorem reschedule_preserves_input (hosts : List HostSpec) (partition : List Int) :
    (rescheduleSt hosts partition).2 = hosts ∧
    (rescheduleSt hosts partition).1 = reschedule hosts partition ∧
    (∀ i, i < hosts.length →
      ((rescheduleSt hosts partition).2.getD i dH).Hostname = (hosts.getD i dH).Hostname ∧
      ((rescheduleSt hosts partition).2.getD i dH).Slots = (hosts.getD i dH).Slots ∧
      ((rescheduleSt hosts partition).2.getD i dH).PublicAddr = (hosts.getD i dH).PublicAddr) := by
  have hstore : (rescheduleSt hosts partition).2 = hosts := by
    unfold rescheduleSt
    by_cases h : hosts.length < partition.length
    · rw [if_pos h]
    · rw [if_neg h]
      exact rescheduleStLoop_store hosts partition 0 []
  refine ⟨hstore, ?_, ?_⟩
  · unfold rescheduleSt reschedule
    by_cases h : hosts.length < partition.length
    · rw [if_pos h, if_pos h]
    · rw [if_neg h, if_neg h]
      rw [rescheduleStLoop_agrees hosts partition 0 [] (by omega)]
      simp only [List.drop_zero]
      match rescheduleGo hosts partition with
      | Except.ok ws => simp
      | Except.error e => rfl
  · intro i _
    rw [hstore]
    exact ⟨rfl, rfl, rfl⟩

/-- Witness for C8 on concrete data: after carving partition `[2]` out
of the single host `("a", 4, "p")`, the input record still reads
`("a", 4, "p")`. -/
theorem reschedule_preserves_input_witness :
    (rescheduleSt [⟨"a", 4, "p"⟩] [2]).2 = [(⟨"a", 4, "p"⟩ : HostSpec)] ∧
    ((rescheduleSt [⟨"a", 4, "p"⟩] [2]).2.getD 0 dH).Slots =
      (([(⟨"a", 4, "p"⟩ : HostSpec)] : List HostSpec).getD 0 dH).Slots :=
  ⟨(reschedule_preserves_input [⟨"a", 4, "p"⟩] [2]).1,
   ((reschedule_preserves_input [⟨"a", 4, "p"⟩] [2]).2.2 0 (by decide)).2.1⟩

theorem getD_range_map {α : Type} (f : ℕ → α) (n i : ℕ) (d : α) (hi : i < n) :
    ((List.range n).map f).getD i d = f i := by
  rw [List.getD_eq_getElem?_getD, List.getElem?_map, List.getElem?_range hi]
  rfl

theorem rescheduleGo_ok_of :
    ∀ (ps : List Int) (hs : List HostSpec), ps.length ≤ hs.length →
      (∀ j, j < ps.length → ¬ ((hs.getD j dH).Slots < ps.getD j 0)) →
      rescheduleGo hs ps =
        Except.ok ((List.range ps.length).map
          (fun j => { hs.getD j dH with Slots := ps.getD j 0 })) := by
  intro ps
  induction ps with
  | nil => intro hs _ _; cases hs <;> simp [rescheduleGo]
  | cons p ps ih =>
    intro hs hlen hok
    match hs with
    | [] => simp at hlen
    | w :: hs =>
      have h0 : ¬ (w.Slots < p) := by
        have := hok 0 (by simp)
        simpa using this
      simp only [rescheduleGo, if_neg h0]
      rw [ih hs (by simpa using hlen) ?_]
      · simp only [List.length_cons, List.range_succ_eq_map, List.map_cons,
          List.map_map]
        constructor
      · intro j hj
        have := hok (j + 1) (by simpa using hj)
        simpa using this

theorem rescheduleGo_err_of :
    ∀ (ps : List Int) (hs : List HostSpec),
      (∃ j, j < ps.length ∧ (hs.getD j dH).Slots < ps.getD j 0) →
      ∃ e, rescheduleGo hs ps = Except.error e := by
  intro ps
  induction ps with
  | nil => rintro hs ⟨j, hj, _⟩; simp at hj
  | cons p ps ih =>
    rintro hs ⟨j, hj, hdef⟩
    match hs with
    | [] => exact ⟨"index out of range", by simp [rescheduleGo]⟩
    | w :: hs =>
      by_cases h0 : w.Slots < p
      · exact ⟨"host slots not enough", by simp [rescheduleGo, if_pos h0]⟩
      · match j with
        | 0 => simp at hdef; omega
        | j + 1 =>
          obtain ⟨e, he⟩ := ih hs ⟨j, by simpa using hj, by simpa using hdef⟩
          refine ⟨e, ?_⟩
          simp only [rescheduleGo, if_neg h0, he]

/-- C7: `reschedule hosts partition` returns an error exactly when the
partition has more elements than there are hosts or some host's native
slot count is below the corresponding partition element; on success it
returns exactly `len(partition)` records, the `i`-th being the `i`-th
input host with its slot count replaced by `partition[i]`. -/
theorem reschedule_spec (hosts : List HostSpec) (partition : List Int) :
    ((∃ e, reschedule hosts partition = Except.error e) ↔
      (hosts.length < partition.length ∨
        ∃ i, i < partition.length ∧ (hosts.getD i dH).Slots < partition.getD i 0)) ∧
    (∀ ws, reschedule hosts partition = Except.ok ws →
      ws.length = partition.length ∧
      ∀ i, i < partition.length →
        ws.getD i dH = { hosts.getD i dH with Slots := partition.getD i 0 }) := by
  constructor
  · constructor
    · rintro ⟨e, he⟩
      by_cases hlen : hosts.length < partition.length
      · exact Or.inl hlen
      · right
        unfold reschedule at he
        rw [if_neg hlen] at he
        by_contra hno
        push_neg at hno
        rw [rescheduleGo_ok_of partition hosts (by omega)
          (fun j hj => not_lt.mpr (hno j hj))] at he
        exact Except.noConfusion he
    · rintro (hlen | ⟨i, hi, hdef⟩)
      · exact ⟨"hosts not enough", by unfold reschedule; rw [if_pos hlen]⟩
      · by_cases hlen : hosts.length < partition.length
        · exact ⟨"hosts not enough", by unfold reschedule; rw [if_pos hlen]⟩
        · obtain ⟨e, he⟩ := rescheduleGo_err_of partition hosts ⟨i, hi, hdef⟩
          exact ⟨e, by unfold reschedule; rw [if_neg hlen]; exact he⟩
  · intro ws hws
    unfold reschedule at hws
    by_cases hlen : hosts.length < partition.length
    · rw [if_pos hlen] at hws
      exact Except.noConfusion hws
    · rw [if_neg hlen] at hws
      have hno : ∀ j, j < partition.length →
          ¬ ((hosts.getD j dH).Slots < partition.getD j 0) := by
        intro j hj
        by_contra hdef
        obtain ⟨e, he⟩ := rescheduleGo_err_of partition hosts ⟨j, hj, hdef⟩
        rw [hws] at he
        exact Except.noConfusion he
      rw [rescheduleGo_ok_of partition hosts (by omega) hno] at hws
      have hws2 := Except.ok.inj hws
      subst hws2
      constructor
      · simp
      · intro i hi
        exact getD_range_map _ partition.length i dH hi

/-- Witness for C7: carving `[2]` out of host `("a", 4, "p")` succeeds
and yields the copy with `Slots = 2`. -/
theorem reschedule_spec_witness :
    ([(⟨"a", 2, "p"⟩ : HostSpec)] : List HostSpec).length = ([2] : List Int).length ∧
    ([(⟨"a", 2, "p"⟩ : HostSpec)] : List HostSpec).getD 0 dH =
      { ([(⟨"a", 4, "p"⟩ : HostSpec)] : List HostSpec).getD 0 dH with
        Slots := ([2] : List Int).getD 0 0 } :=
  ⟨((reschedule_spec [⟨"a", 4, "p"⟩] [2]).2 [⟨"a", 2, "p"⟩] rfl).1,
   ((reschedule_spec [⟨"a", 4, "p"⟩] [2]).2 [⟨"a", 2, "p"⟩] rfl).2 0 (by decide)⟩

/-! ## `simpleRun` of `kungfu-run.go` (C10)

Lines 128-140 of `srcs/go/cmd/kungfu-run/kungfu-run.go`: filter the
process plan down to this host, return silently when nothing is local,
otherwise run `runner.LocalRunAll` and call `utils.ExitErr(err)` — a
fatal non-zero process exit — exactly when the returned error is
non-nil AND differs from the `context.DeadlineExceeded` sentinel
(compared with Go `!=` on the error interface). -/

/-- Error values returned by the local runner: the
`context.DeadlineExceeded` sentinel, or any other error. -/
inductive RunErr where
  | deadlineExceeded
  | failure (msg : String)
deriving DecidableEq

/-- How the `simpleRun` invocation ends: a normal return, or the fatal
process exit performed by `utils.ExitErr`.  Modelled from the spec:
`utils.ExitErr` (package `utils`, not under the embedded sources) is a
fatal exit with a non-zero status and the error message. -/
inductive RunOutcome where
  | normal
  | fatalExit (e : RunErr)
deriving DecidableEq

/-- One process launch specification, reduced to the field `ForHost`
selects on.  Modelled from the spec: `sch.Proc` and `sch.ForHost`
(package `scheduler`, not under the embedded sources) — `forHost`
filters the plan down to the specs whose host equals the given
address. -/
structure Proc where
  Hostname : String
deriving DecidableEq

/-- `sch.ForHost(selfIP, ps)`.  Modelled from the spec: keeps exactly
the specs local to the given host. -/
def ForHost (host : String) (ps : List Proc) : List Proc :=
  ps.filter (fun p => p.Hostname == host)

/-- `simpleRun` (lines 128-140): `myPs := sch.ForHost(selfIP, ps)`;
empty plan returns normally; otherwise the local runner's error
(abstracted as `runnerErr`, `none` for nil) is fatal exactly when it is
non-nil and not `context.DeadlineExceeded`. -/
def simpleRun (selfIP : String) (ps : List Proc) (runnerErr : Option RunErr) :
    RunOutcome :=
  let myPs := ForHost selfIP ps
  if myPs.length ≤ 0 then RunOutcome.normal
  else
    match runnerErr with
    | some e =>
      if e = RunErr.deadlineExceeded then RunOutcome.normal
      else RunOutcome.fatalExit e
    | none => RunOutcome.normal

/-- C10: when some tasks are local, `simpleRun` exits fatally exactly
when the local runner returns a non-nil error different from
`context.DeadlineExceeded`; in particular a run whose only error is the
deadline-exceeded outcome returns normally, distinguishing timeout from
process or transport failure. -/
theorem simpleRun_timeout_not_fatal (selfIP : String) (ps : List Proc)
    (runnerErr : Option RunErr) (hne : ForHost selfIP ps ≠ []) :
    ((∃ e, simpleRun selfIP ps runnerErr = RunOutcome.fatalExit e) ↔
      (∃ e, runnerErr = some e ∧ e ≠ RunErr.deadlineExceeded)) ∧
    simpleRun selfIP ps (some RunErr.deadlineExceeded) = RunOutcome.normal ∧
    simpleRun selfIP ps none = RunOutcome.normal := by
  have hlen : ¬ (ForHost selfIP ps).length ≤ 0 := by
    simp only [Nat.le_zero, List.length_eq_zero]
    exact hne
  refine ⟨⟨?_, ?_⟩, ?_, ?_⟩
  · rintro ⟨e, he⟩
    simp only [simpleRun, if_neg hlen] at he
    match runnerErr with
    | none => simp at he
    | some e' =>
      by_cases hd : e' = RunErr.deadlineExceeded
      · subst hd
        simp at he
      · exact ⟨e', rfl, hd⟩
  · rintro ⟨e, hsome, hd⟩
    refine ⟨e, ?_⟩
    simp only [simpleRun, if_neg hlen, hsome, if_neg hd]
  · simp [simpleRun, if_neg hlen]
  · simp [simpleRun, if_neg hlen]

/-- Witness for C10: on a host with one local task, a genuine failure
exits fatally while a pure timeout does not. -/
theorem simpleRun_timeout_not_fatal_witness :
    (∃ e, simpleRun "h" [⟨"h"⟩] (some (RunErr.failure "exit status 1")) =
      RunOutcome.fatalExit e) ∧
    simpleRun "h" [⟨"h"⟩] (some RunErr.deadlineExceeded) = RunOutcome.normal :=
  ⟨((simpleRun_timeout_not_fatal "h" [⟨"h"⟩]
      (some (RunErr.failure "exit status 1")) (by decide)).1).mpr
    ⟨RunErr.failure "exit status 1", rfl, by decide⟩,
   (simpleRun_timeout_not_fatal "h" [⟨"h"⟩]
      (some (RunErr.failure "exit status 1")) (by decide)).2.1⟩

end KungFu
